import Mathlib

/-!
Verification of the native skip primitive in
`src/java.base/linux/native/libnio/ch/PipeDispatcherImpl.c`
(`Java_sun_nio_ch_PipeDispatcherImpl_skip0`).

The function is a loop of `read(2)` calls into a scratch buffer, discarding
the data.  We embed it shallowly: the environment (the descriptor) is a list
of read outcomes consumed one per loop iteration, and the function returns an
`Outcome` recording the `jlong` return value, the messages raised through the
JNI exception channel, and the byte counts requested by the read syscalls it
issued (in order).  `none` means the supplied list of outcomes ran out while
the loop still wanted to read.
-/

/-- The outcome the OS gives one `read(2)` call: either a non-negative byte
count (`read` returned `nr >= 0`), or `-1` with the given `errno`.  For an
errno outside `EAGAIN`/`EWOULDBLOCK`/`EINTR` the constructor carries the OS
error text that `strerror` would produce for it. -/
inductive Errno where
  | eagain
  | ewouldblock
  | eintr
  | other (osText : String)
deriving DecidableEq, Repr

/-- One element of the environment trace: what the next `read` call returns. -/
inductive ReadResult where
  | ok (nr : Nat)
  | err (e : Errno)
deriving DecidableEq, Repr

/-- `static const ssize_t MAX_SKIP_BUFFER_SIZE = 4096;` (line 33 of the C
source): the cap on the scratch-buffer size used when skipping. -/
def MAX_SKIP_BUFFER_SIZE : Int := 4096

/-- Modelled from the spec: `nio.h` is not under `src/`; the spec says the
interruption outcome is signalled by a distinguished negative sentinel.  The
concrete value `-3` is the JDK's `IOS_INTERRUPTED`; the claims use only that
it is negative and distinct from `IOS_THROWN`. -/
def IOS_INTERRUPTED : Int := -3

/-- Modelled from the spec: `nio.h` is not under `src/`; the spec says the
raised-exception outcome is signalled by a second distinguished negative
sentinel.  The concrete value `-5` is the JDK's `IOS_THROWN`; the claims use
only that it is negative and distinct from `IOS_INTERRUPTED`. -/
def IOS_THROWN : Int := -5

/-- What one call to the skip primitive did, observably:
`ret` is the `jlong` it returned; `thrown` lists the messages of the
exceptions it raised via `JNU_ThrowIOExceptionWithLastError` (modelled from
the spec as carrying the OS error text, since `jni_util` is not under
`src/`); `requested` lists the byte counts of the `read` syscalls it issued,
in order. -/
structure Outcome where
  ret : Int
  thrown : List String
  requested : List Int
deriving DecidableEq, Repr

/-- `const long bs = n < MAX_SKIP_BUFFER_SIZE ? (long) n : MAX_SKIP_BUFFER_SIZE;`
(line 43): the scratch-buffer (chunk) size. -/
def chunkSize (n : Int) : Int :=
  if n < MAX_SKIP_BUFFER_SIZE then n else MAX_SKIP_BUFFER_SIZE

/-- Lines 48-49: `remaining = n - tn; count = remaining < bs ? remaining : bs;`
the number of bytes the next `read` call requests, given the total `tn`
accumulated so far. -/
def readCount (n bs tn : Int) : Int :=
  if n - tn < bs then n - tn else bs

/-- Line 61-62: `if (nr > 0) tn += nr;` the skip counter after one
successful read of `nr` bytes. -/
def bumpTn (tn : Int) (nr : Nat) : Int :=
  if 0 < (nr : Int) then tn + (nr : Int) else tn

/-- The `for (;;)` loop of lines 47-66.  One list element is consumed per
iteration (the outcome of that iteration's `read`).  Returns `none` when the
trace is exhausted while the loop still wants to iterate. -/
def skipLoop (n bs tn : Int) : List ReadResult → Option Outcome
  | [] => none
  | .err .eagain :: _ => some ⟨tn, [], [readCount n bs tn]⟩
  | .err .ewouldblock :: _ => some ⟨tn, [], [readCount n bs tn]⟩
  | .err .eintr :: _ => some ⟨IOS_INTERRUPTED, [], [readCount n bs tn]⟩
  | .err (.other osText) :: _ => some ⟨IOS_THROWN, [osText], [readCount n bs tn]⟩
  | .ok nr :: rest =>
    if (nr : Int) = bs then
      match skipLoop n bs (bumpTn tn nr) rest with
      | none => none
      | some o => some ⟨o.ret, o.thrown, readCount n bs tn :: o.requested⟩
    else
      some ⟨bumpTn tn nr, [], [readCount n bs tn]⟩

/-- `Java_sun_nio_ch_PipeDispatcherImpl_skip0` (lines 36-67): if `n < 1`
return 0 having issued no read; otherwise run the loop with `tn = 0` and
`bs = chunkSize n`. -/
def skip0 (n : Int) (reads : List ReadResult) : Option Outcome :=
  if n < 1 then some ⟨0, [], []⟩
  else skipLoop n (chunkSize n) 0 reads

/-- POSIX validity of a trace along its consumption by the loop: every `ok nr`
outcome actually consumed returns at most the byte count that the read
requested at that point.  Outcomes past the loop's termination are
unconstrained (the loop never issues those reads). -/
def validReads (n bs tn : Int) : List ReadResult → Bool
  | [] => true
  | .err _ :: _ => true
  | .ok nr :: rest =>
    decide ((nr : Int) ≤ readCount n bs tn) &&
      (if (nr : Int) = bs then validReads n bs (bumpTn tn nr) rest else true)

/-- The total number of bytes the loop accumulates from a trace prefix it
runs through entirely: the sum of the positive `ok` counts. -/
def accum : List ReadResult → Int
  | [] => 0
  | .ok nr :: rest => (if 0 < (nr : Int) then (nr : Int) else 0) + accum rest
  | .err _ :: rest => accum rest

/-- Environment model for a descriptor with `avail` bytes immediately
available followed by end-of-stream: each `read` requesting `c` bytes
returns `min c avail` and consumes that much.  `fuel` bounds the length of
the generated trace; the trace mirrors the loop's own state evolution so
that element `i` is the outcome of the `i`-th read the loop issues. -/
def greedyTrace (fuel : Nat) (n bs tn : Int) (avail : Nat) : List ReadResult :=
  match fuel with
  | 0 => []
  | fuel + 1 =>
    let nr : Int := min (readCount n bs tn) (avail : Int)
    .ok nr.toNat ::
      greedyTrace fuel n bs (if 0 < nr then tn + nr else tn) (avail - nr.toNat)

example : skip0 5 [.ok 3] = some ⟨3, [], [5]⟩ := by decide
example : skip0 (-1) [] = some ⟨0, [], []⟩ := by decide
example : skip0 5000 [.ok 4096, .ok 904] = some ⟨5000, [], [4096, 904]⟩ := by
  decide
example : skip0 5000 [.ok 4096, .err .eintr] = some ⟨-3, [], [4096, 904]⟩ := by
  decide
example : skip0 4096 [.ok 4096, .ok 0] = some ⟨4096, [], [4096, 0]⟩ := by
  decide
example : skip0 7 [.err .eagain] = some ⟨0, [], [7]⟩ := by decide
example : skip0 7 [.err (.other "enospc")] = some ⟨-5, ["enospc"], [7]⟩ := by
  decide
example : skip0 5 (greedyTrace 6 5 (chunkSize 5) 0 3) = some ⟨3, [], [5]⟩ := by
  decide
example : skip0 9000 (greedyTrace 9001 9000 (chunkSize 9000) 0 20000)
    = some ⟨9000, [], [4096, 4096, 808]⟩ := by decide
example : validReads 5 5 0 [.ok 3] = true := by decide
example : validReads 5 5 0 [.ok 6] = false := by decide

/-! Helper lemmas about one iteration of the loop. -/

theorem skipLoop_nil (n bs tn : Int) : skipLoop n bs tn [] = none := rfl

theorem skipLoop_eagain (n bs tn : Int) (l : List ReadResult) :
    skipLoop n bs tn (.err .eagain :: l) = some ⟨tn, [], [readCount n bs tn]⟩ :=
  rfl

theorem skipLoop_ewouldblock (n bs tn : Int) (l : List ReadResult) :
    skipLoop n bs tn (.err .ewouldblock :: l)
      = some ⟨tn, [], [readCount n bs tn]⟩ :=
  rfl

theorem skipLoop_eintr (n bs tn : Int) (l : List ReadResult) :
    skipLoop n bs tn (.err .eintr :: l)
      = some ⟨IOS_INTERRUPTED, [], [readCount n bs tn]⟩ :=
  rfl

theorem skipLoop_other (n bs tn : Int) (s : String) (l : List ReadResult) :
    skipLoop n bs tn (.err (.other s) :: l)
      = some ⟨IOS_THROWN, [s], [readCount n bs tn]⟩ :=
  rfl

theorem skipLoop_ok_continue (n bs tn : Int) (nr : Nat) (l : List ReadResult)
    (h : (nr : Int) = bs) :
    skipLoop n bs tn (.ok nr :: l)
      = (skipLoop n bs (bumpTn tn nr) l).map
          (fun o => ⟨o.ret, o.thrown, readCount n bs tn :: o.requested⟩) := by
  simp only [skipLoop, if_pos h]
  cases skipLoop n bs (bumpTn tn nr) l <;> rfl

theorem skipLoop_ok_stop (n bs tn : Int) (nr : Nat) (l : List ReadResult)
    (h : ¬ (nr : Int) = bs) :
    skipLoop n bs tn (.ok nr :: l)
      = some ⟨bumpTn tn nr, [], [readCount n bs tn]⟩ := by
  simp only [skipLoop, if_neg h]

theorem bumpTn_add_eq (tn : Int) (nr : Nat) (x : Int) :
    bumpTn tn nr + x = tn + ((if 0 < (nr : Int) then (nr : Int) else 0) + x) := by
  unfold bumpTn
  split <;> ring

/-- Running the loop over `l ++ l'` when `l` alone exhausts without
terminating: the loop reaches `l'` with the skip counter advanced by
`accum l`, and the return value and thrown messages are those produced
from `l'`. -/
theorem skipLoop_append_of_none (l : List ReadResult) :
    ∀ (n bs tn : Int) (l' : List ReadResult), skipLoop n bs tn l = none →
      (skipLoop n bs tn (l ++ l')).map Outcome.ret
          = (skipLoop n bs (tn + accum l) l').map Outcome.ret
      ∧ (skipLoop n bs tn (l ++ l')).map Outcome.thrown
          = (skipLoop n bs (tn + accum l) l').map Outcome.thrown := by
  induction l with
  | nil =>
    intro n bs tn l' h
    simp [accum]
  | cons r rest ih =>
    intro n bs tn l' h
    match r with
    | .err .eagain => rw [skipLoop_eagain] at h; exact absurd h (by simp)
    | .err .ewouldblock =>
      rw [skipLoop_ewouldblock] at h; exact absurd h (by simp)
    | .err .eintr => rw [skipLoop_eintr] at h; exact absurd h (by simp)
    | .err (.other s) => rw [skipLoop_other] at h; exact absurd h (by simp)
    | .ok nr =>
      by_cases hbs : (nr : Int) = bs
      · rw [skipLoop_ok_continue n bs tn nr rest hbs] at h
        have hnone : skipLoop n bs (bumpTn tn nr) rest = none :=
          Option.map_eq_none'.mp h
        have hih := ih n bs (bumpTn tn nr) l' hnone
        have hacc : bumpTn tn nr + accum rest = tn + accum (.ok nr :: rest) := by
          rw [accum, bumpTn_add_eq]
        rw [List.cons_append, skipLoop_ok_continue n bs tn nr (rest ++ l') hbs,
          Option.map_map, Option.map_map]
        rw [hacc] at hih
        exact ⟨hih.1, hih.2⟩
      · rw [skipLoop_ok_stop n bs tn nr rest hbs] at h
        exact absurd h (by simp)

theorem readCount_eq_min (n bs tn : Int) : readCount n bs tn = min (n - tn) bs := by
  unfold readCount
  split <;> omega

theorem chunkSize_eq_min (n : Int) : chunkSize n = min n 4096 := by
  unfold chunkSize MAX_SKIP_BUFFER_SIZE
  split <;> omega

theorem chunkSize_bounds (n : Int) (h : 1 ≤ n) :
    1 ≤ chunkSize n ∧ chunkSize n ≤ n := by
  unfold chunkSize MAX_SKIP_BUFFER_SIZE
  split <;> omega

/-- Loop invariant: starting from a skip counter `tn` with `0 ≤ tn ≤ n` and a
POSIX-valid trace, the loop returns either one of the two sentinels or a
total in `[tn, n]`. -/
theorem skipLoop_ret_bounds (l : List ReadResult) :
    ∀ (n bs tn : Int), 1 ≤ bs → 0 ≤ tn → tn ≤ n →
      validReads n bs tn l = true →
      ∀ o, skipLoop n bs tn l = some o →
        o.ret = IOS_INTERRUPTED ∨ o.ret = IOS_THROWN
          ∨ (tn ≤ o.ret ∧ o.ret ≤ n) := by
  induction l with
  | nil =>
    intro n bs tn _ _ _ _ o h
    rw [skipLoop_nil] at h
    exact absurd h (by simp)
  | cons r rest ih =>
    intro n bs tn hbs htn0 htnn hv o h
    match r with
    | .err .eagain =>
      rw [skipLoop_eagain] at h
      rw [Option.some.injEq] at h
      subst h
      exact Or.inr (Or.inr ⟨le_refl tn, htnn⟩)
    | .err .ewouldblock =>
      rw [skipLoop_ewouldblock] at h
      rw [Option.some.injEq] at h
      subst h
      exact Or.inr (Or.inr ⟨le_refl tn, htnn⟩)
    | .err .eintr =>
      rw [skipLoop_eintr] at h
      rw [Option.some.injEq] at h
      subst h
      exact Or.inl rfl
    | .err (.other s) =>
      rw [skipLoop_other] at h
      rw [Option.some.injEq] at h
      subst h
      exact Or.inr (Or.inl rfl)
    | .ok nr =>
      have hv' := hv
      unfold validReads at hv'
      rw [Bool.and_eq_true, decide_eq_true_eq] at hv'
      obtain ⟨hcount, hrest⟩ := hv'
      have hle : (nr : Int) ≤ n - tn := by
        unfold readCount at hcount
        split at hcount <;> omega
      have hbump0 : tn ≤ bumpTn tn nr := by
        unfold bumpTn
        split <;> omega
      have hbumpn : bumpTn tn nr ≤ n := by
        unfold bumpTn
        split <;> omega
      by_cases hbs' : (nr : Int) = bs
      · rw [if_pos hbs'] at hrest
        rw [skipLoop_ok_continue n bs tn nr rest hbs'] at h
        obtain ⟨o', ho', rfl⟩ := Option.map_eq_some'.mp h
        have := ih n bs (bumpTn tn nr) hbs (le_trans htn0 hbump0) hbumpn
          hrest o' ho'
        rcases this with h1 | h2 | h3
        · exact Or.inl h1
        · exact Or.inr (Or.inl h2)
        · exact Or.inr (Or.inr ⟨le_trans hbump0 h3.1, h3.2⟩)
      · rw [skipLoop_ok_stop n bs tn nr rest hbs'] at h
        rw [Option.some.injEq] at h
        subst h
        exact Or.inr (Or.inr ⟨hbump0, hbumpn⟩)

/-- Without any validity assumption: every terminating run returns one of the
two sentinels or a non-negative total (the skip counter starts at `0 ≤ tn`
and never decreases). -/
theorem skipLoop_ret_cases (l : List ReadResult) :
    ∀ (n bs tn : Int), 0 ≤ tn →
      ∀ o, skipLoop n bs tn l = some o →
        o.ret = IOS_INTERRUPTED ∨ o.ret = IOS_THROWN ∨ 0 ≤ o.ret := by
  induction l with
  | nil =>
    intro n bs tn _ o h
    rw [skipLoop_nil] at h
    exact absurd h (by simp)
  | cons r rest ih =>
    intro n bs tn htn0 o h
    match r with
    | .err .eagain =>
      rw [skipLoop_eagain, Option.some.injEq] at h
      subst h
      exact Or.inr (Or.inr htn0)
    | .err .ewouldblock =>
      rw [skipLoop_ewouldblock, Option.some.injEq] at h
      subst h
      exact Or.inr (Or.inr htn0)
    | .err .eintr =>
      rw [skipLoop_eintr, Option.some.injEq] at h
      subst h
      exact Or.inl rfl
    | .err (.other s) =>
      rw [skipLoop_other, Option.some.injEq] at h
      subst h
      exact Or.inr (Or.inl rfl)
    | .ok nr =>
      have hb : (0 : Int) ≤ bumpTn tn nr := by
        unfold bumpTn
        split <;> omega
      by_cases hbs' : (nr : Int) = bs
      · rw [skipLoop_ok_continue n bs tn nr rest hbs'] at h
        obtain ⟨o', ho', rfl⟩ := Option.map_eq_some'.mp h
        exact ih n bs (bumpTn tn nr) hb o' ho'
      · rw [skipLoop_ok_stop n bs tn nr rest hbs', Option.some.injEq] at h
        subst h
        exact Or.inr (Or.inr hb)

/-- Along any terminating run the loop continues only on reads of exactly
`bs` bytes, so at the `i`-th iteration the skip counter is `tn + i * bs` and
the `i`-th read requests `readCount n bs (tn + i * bs)` bytes. -/
theorem skipLoop_requested (l : List ReadResult) :
    ∀ (n bs tn : Int), 1 ≤ bs →
      ∀ o, skipLoop n bs tn l = some o →
        ∀ i, i < o.requested.length →
          o.requested.getD i 0 = readCount n bs (tn + i * bs) := by
  induction l with
  | nil =>
    intro n bs tn _ o h
    rw [skipLoop_nil] at h
    exact absurd h (by simp)
  | cons r rest ih =>
    intro n bs tn hbs o h i hi
    match r with
    | .err .eagain =>
      rw [skipLoop_eagain, Option.some.injEq] at h
      subst h
      simp only [List.length_singleton] at hi
      interval_cases i
      simp
    | .err .ewouldblock =>
      rw [skipLoop_ewouldblock, Option.some.injEq] at h
      subst h
      simp only [List.length_singleton] at hi
      interval_cases i
      simp
    | .err .eintr =>
      rw [skipLoop_eintr, Option.some.injEq] at h
      subst h
      simp only [List.length_singleton] at hi
      interval_cases i
      simp
    | .err (.other s) =>
      rw [skipLoop_other, Option.some.injEq] at h
      subst h
      simp only [List.length_singleton] at hi
      interval_cases i
      simp
    | .ok nr =>
      by_cases hbs' : (nr : Int) = bs
      · rw [skipLoop_ok_continue n bs tn nr rest hbs'] at h
        obtain ⟨o', ho', rfl⟩ := Option.map_eq_some'.mp h
        have hbump : bumpTn tn nr = tn + bs := by
          unfold bumpTn
          rw [hbs']
          split <;> omega
        match i with
        | 0 => simp
        | i + 1 =>
          simp only [List.length_cons, Nat.add_lt_add_iff_right] at hi
          have := ih n bs (bumpTn tn nr) hbs o' ho' i hi
          rw [hbump] at this
          have harith : tn + bs + (i : Int) * bs = tn + ((i : Int) + 1) * bs := by
            ring
          rw [harith] at this
          simpa using this
      · rw [skipLoop_ok_stop n bs tn nr rest hbs', Option.some.injEq] at h
        subst h
        simp only [List.length_singleton] at hi
        interval_cases i
        simp

/-- Along any POSIX-valid run starting with `tn ≤ n`: if the trace is
exhausted without the loop terminating then every consumed read continued,
so `length * bs ≤ n - tn`; and if the loop terminated it issued at least one
read and at most `(n - tn) / bs + 1` of them (in product form). -/
theorem skipLoop_iter_bound (l : List ReadResult) :
    ∀ (n bs tn : Int), 1 ≤ bs → tn ≤ n → validReads n bs tn l = true →
      (skipLoop n bs tn l = none → (l.length : Int) * bs ≤ n - tn)
      ∧ (∀ o, skipLoop n bs tn l = some o →
          1 ≤ o.requested.length
          ∧ ((o.requested.length : Int) - 1) * bs ≤ n - tn) := by
  induction l with
  | nil =>
    intro n bs tn hbs htnn _
    refine ⟨fun _ => by simpa using htnn, fun o h => ?_⟩
    rw [skipLoop_nil] at h
    exact absurd h (by simp)
  | cons r rest ih =>
    intro n bs tn hbs htnn hv
    match r with
    | .err .eagain =>
      refine ⟨fun h => absurd (skipLoop_eagain n bs tn rest ▸ h) (by simp),
        fun o h => ?_⟩
      rw [skipLoop_eagain, Option.some.injEq] at h
      subst h
      simpa using htnn
    | .err .ewouldblock =>
      refine ⟨fun h => absurd (skipLoop_ewouldblock n bs tn rest ▸ h) (by simp),
        fun o h => ?_⟩
      rw [skipLoop_ewouldblock, Option.some.injEq] at h
      subst h
      simpa using htnn
    | .err .eintr =>
      refine ⟨fun h => absurd (skipLoop_eintr n bs tn rest ▸ h) (by simp),
        fun o h => ?_⟩
      rw [skipLoop_eintr, Option.some.injEq] at h
      subst h
      simpa using htnn
    | .err (.other s) =>
      refine ⟨fun h => absurd (skipLoop_other n bs tn s rest ▸ h) (by simp),
        fun o h => ?_⟩
      rw [skipLoop_other, Option.some.injEq] at h
      subst h
      simpa using htnn
    | .ok nr =>
      have hv' := hv
      unfold validReads at hv'
      rw [Bool.and_eq_true, decide_eq_true_eq] at hv'
      obtain ⟨hcount, hrest⟩ := hv'
      by_cases hbs' : (nr : Int) = bs
      · have hroom : bs ≤ n - tn := by
          unfold readCount at hcount
          split at hcount <;> omega
        have hbump : bumpTn tn nr = tn + bs := by
          unfold bumpTn
          rw [hbs']
          split <;> omega
        rw [if_pos hbs'] at hrest
        have hih := ih n bs (bumpTn tn nr) hbs (by omega) hrest
        rw [hbump] at hih
        constructor
        · intro h
          rw [skipLoop_ok_continue n bs tn nr rest hbs'] at h
          have hnone := Option.map_eq_none'.mp h
          rw [hbump] at hnone
          have := hih.1 hnone
          have hc : ((rest.length + 1 : Nat) : Int) * bs
              = (rest.length : Int) * bs + bs := by
            push_cast
            ring
          simp only [List.length_cons]
          rw [hc]
          omega
        · intro o h
          rw [skipLoop_ok_continue n bs tn nr rest hbs'] at h
          obtain ⟨o', ho', rfl⟩ := Option.map_eq_some'.mp h
          rw [hbump] at ho'
          obtain ⟨hlen1, hlen2⟩ := hih.2 o' ho'
          simp only [List.length_cons]
          refine ⟨by omega, ?_⟩
          have hc : ((o'.requested.length + 1 : Nat) : Int) - 1
              = ((o'.requested.length : Int) - 1) + 1 := by
            push_cast
            ring
          rw [hc, add_mul, one_mul]
          omega
      · refine ⟨fun h =>
          absurd (skipLoop_ok_stop n bs tn nr rest hbs' ▸ h) (by simp),
          fun o h => ?_⟩
        rw [skipLoop_ok_stop n bs tn nr rest hbs', Option.some.injEq] at h
        subst h
        simpa using htnn

/-- Running the loop against a greedy descriptor holding `avail` bytes:
whenever the fuel covers the remaining count, the loop terminates with
total `tn + min avail (n - tn)` and raises nothing. -/
theorem skipLoop_greedy (fuel : Nat) :
    ∀ (n bs tn : Int) (avail : Nat),
      1 ≤ bs → 0 ≤ tn → tn ≤ n → n - tn < (fuel : Int) * bs →
      ∃ reqs, skipLoop n bs tn (greedyTrace fuel n bs tn avail)
        = some ⟨tn + min (avail : Int) (n - tn), [], reqs⟩ := by
  induction fuel with
  | zero =>
    intro n bs tn avail hbs htn0 htnn hf
    exfalso
    simp only [Nat.cast_zero, zero_mul] at hf
    omega
  | succ fuel ih =>
    intro n bs tn avail hbs htn0 htnn hf
    have hc0 : 0 ≤ readCount n bs tn := by
      unfold readCount
      split <;> omega
    have hcbs : readCount n bs tn ≤ bs := by
      unfold readCount
      split <;> omega
    have hcrem : readCount n bs tn ≤ n - tn := by
      unfold readCount
      split <;> omega
    have hnr0 : 0 ≤ min (readCount n bs tn) ((avail : Nat) : Int) := by
      have : (0 : Int) ≤ (avail : Int) := Int.ofNat_nonneg avail
      omega
    have hcast : ((min (readCount n bs tn) ((avail : Nat) : Int)).toNat : Int)
        = min (readCount n bs tn) ((avail : Nat) : Int) :=
      Int.toNat_of_nonneg hnr0
    simp only [greedyTrace]
    by_cases hbs' : ((min (readCount n bs tn) ((avail : Nat) : Int)).toNat : Int)
        = bs
    · -- the read filled the buffer exactly: the loop continues
      have hmin : min (readCount n bs tn) ((avail : Int)) = bs := by
        rw [hcast] at hbs'
        exact hbs'
      have hcount : readCount n bs tn = bs := by omega
      have havail : bs ≤ (avail : Int) := by omega
      have hroom : bs ≤ n - tn := by
        unfold readCount at hcount
        split at hcount <;> omega
      have hpos : 0 < min (readCount n bs tn) ((avail : Int)) := by omega
      rw [if_pos hpos]
      rw [skipLoop_ok_continue n bs tn _ _ hbs']
      have hbump : bumpTn tn (min (readCount n bs tn) ((avail : Int))).toNat
          = tn + bs := by
        unfold bumpTn
        rw [hcast, hmin]
        split <;> omega
      have hfuel' : n - (tn + bs) < (fuel : Int) * bs := by
        push_cast at hf
        have hexp : ((fuel : Int) + 1) * bs = (fuel : Int) * bs + bs := by ring
        omega
      have hih := ih n bs (tn + bs) (avail - bs.toNat) hbs (by omega) (by omega)
        hfuel'
      obtain ⟨reqs, hreqs⟩ := hih
      rw [hmin] at hbump
      rw [hmin, hbump, hreqs]
      refine ⟨readCount n bs tn :: reqs, ?_⟩
      simp only [Option.map_some']
      have hret : tn + bs + min (((avail - bs.toNat : Nat) : Int)) (n - (tn + bs))
          = tn + min ((avail : Int)) (n - tn) := by
        omega
      simp [hret]
    · -- short read (possibly zero): the loop stops
      have hmin : min (readCount n bs tn) ((avail : Int))
          = min ((avail : Int)) (n - tn) := by
        rw [hcast] at hbs'
        unfold readCount at hc0 hcbs hcrem hbs' ⊢
        split <;> split at hbs' <;> omega
      rw [skipLoop_ok_stop n bs tn _ _ hbs']
      refine ⟨[readCount n bs tn], ?_⟩
      congr 1
      have hbump : bumpTn tn (min (readCount n bs tn) ((avail : Int))).toNat
          = tn + min ((avail : Int)) (n - tn) := by
        unfold bumpTn
        rw [hcast, hmin]
        have ha : (0 : Int) ≤ (avail : Int) := Int.ofNat_nonneg avail
        split <;> omega
      rw [hbump]

/-- Running the loop on a trace of exactly `m` full-buffer reads followed by
one zero-byte read, when the remaining count is exactly `m * bs`: the loop
walks through all `m` reads, then issues one extra read (of 0 bytes) and
returns `n`. -/
theorem skipLoop_exact_multiple (m : Nat) :
    ∀ (n bs tn : Int), 1 ≤ bs → n - tn = (m : Int) * bs →
      skipLoop n bs tn (List.replicate m (.ok bs.toNat) ++ [.ok 0])
        = some ⟨n, [], List.replicate m bs ++ [0]⟩ := by
  induction m with
  | zero =>
    intro n bs tn hbs hrem
    simp only [Nat.cast_zero, zero_mul] at hrem
    simp only [List.replicate_zero, List.nil_append]
    have h0 : ¬ ((0 : Nat) : Int) = bs := by
      simp only [Nat.cast_zero]
      omega
    rw [skipLoop_ok_stop n bs tn 0 [] h0]
    have hbump : bumpTn tn 0 = tn := by
      unfold bumpTn
      split <;> omega
    have hcount : readCount n bs tn = 0 := by
      unfold readCount
      split <;> omega
    rw [hbump, hcount]
    congr 2
    omega
  | succ m ih =>
    intro n bs tn hbs hrem
    have hroom : bs ≤ n - tn := by
      push_cast at hrem
      nlinarith [Int.ofNat_nonneg m]
    have hcast : ((bs.toNat : Nat) : Int) = bs := Int.toNat_of_nonneg (by omega)
    simp only [List.replicate_succ, List.cons_append]
    rw [skipLoop_ok_continue n bs tn bs.toNat _ hcast]
    have hbump : bumpTn tn bs.toNat = tn + bs := by
      unfold bumpTn
      rw [hcast]
      split <;> omega
    have hrem' : n - (tn + bs) = (m : Int) * bs := by
      push_cast at hrem ⊢
      linarith
    rw [hbump, ih n bs (tn + bs) hbs hrem']
    have hcount : readCount n bs tn = bs := by
      unfold readCount
      split <;> omega
    simp [hcount]

/-! The claims. -/

/-- Claim C1: for every requested count `n ≥ 1` and every descriptor whose
stream delivers `k` bytes before end-of-stream (each read returns
`min requested available`, no errors), `skip0` returns exactly `min k n`
and raises nothing: the full count when at least `n` bytes are available,
the available byte count otherwise. -/
theorem skip0_greedy_min (n : Int) (k : Nat) (h : 1 ≤ n) :
    (skip0 n (greedyTrace (n.toNat + 1) n (chunkSize n) 0 k)).map Outcome.ret
        = some (min (k : Int) n)
    ∧ (skip0 n (greedyTrace (n.toNat + 1) n (chunkSize n) 0 k)).map
        Outcome.thrown = some [] := by
  obtain ⟨hbs1, hbsn⟩ := chunkSize_bounds n h
  have hcast : ((n.toNat : Nat) : Int) = n := Int.toNat_of_nonneg (by omega)
  have hfuel : n - 0 < ((n.toNat + 1 : Nat) : Int) * chunkSize n := by
    push_cast
    rw [hcast]
    nlinarith
  obtain ⟨reqs, hreqs⟩ := skipLoop_greedy (n.toNat + 1) n (chunkSize n) 0 k
    hbs1 (le_refl 0) (by omega) hfuel
  unfold skip0
  rw [if_neg (by omega), hreqs]
  simp

theorem skip0_greedy_min_witness :
    (skip0 5 (greedyTrace ((5 : Int).toNat + 1) 5 (chunkSize 5) 0 3)).map
        Outcome.ret = some (min ((3 : Nat) : Int) 5)
    ∧ (skip0 5 (greedyTrace ((5 : Int).toNat + 1) 5 (chunkSize 5) 0 3)).map
        Outcome.thrown = some [] :=
  skip0_greedy_min 5 3 (by decide)

/-- Claim C2: whenever a read fails with `EINTR` at any iteration of the
loop — after any trace prefix `pre` the loop ran through without
terminating — `skip0` returns the interruption sentinel and raises nothing;
the bytes accumulated so far are discarded, the sentinel is returned
regardless of how many bytes were already skipped. -/
theorem skip0_eintr_discards (n : Int) (pre rest : List ReadResult)
    (h1 : 1 ≤ n) (h2 : skip0 n pre = none) :
    (skip0 n (pre ++ .err .eintr :: rest)).map Outcome.ret
        = some IOS_INTERRUPTED
    ∧ (skip0 n (pre ++ .err .eintr :: rest)).map Outcome.thrown = some [] := by
  unfold skip0 at h2 ⊢
  rw [if_neg (by omega)] at h2 ⊢
  have ha := skipLoop_append_of_none pre n (chunkSize n) 0
    (.err .eintr :: rest) h2
  rw [ha.1, ha.2, skipLoop_eintr]
  simp

theorem skip0_eintr_discards_witness :
    (skip0 5000 ([.ok 4096] ++ .err .eintr :: [])).map Outcome.ret
        = some IOS_INTERRUPTED
    ∧ (skip0 5000 ([.ok 4096] ++ .err .eintr :: [])).map Outcome.thrown
        = some [] :=
  skip0_eintr_discards 5000 [.ok 4096] [] (by decide) (by decide)

/-- Claim C3 counterexample: the claim asserts every non-sentinel return
value is at most the requested count `n`, over all inputs.  At `n = -1` the
function returns 0 — a success value, distinct from both sentinels — and
`0 ≤ -1` is false, so the bound `ret ≤ n` fails for negative counts. -/
theorem skip0_ret_le_count_counterexample :
    skip0 (-1) [] = some ⟨0, [], []⟩
    ∧ (0 : Int) ≠ IOS_INTERRUPTED ∧ (0 : Int) ≠ IOS_THROWN
    ∧ ¬ ((0 : Int) ≤ -1) := by decide

/-- Claim C3 (amended): for every requested count `n ≥ 1` (so the loop
runs) and every POSIX-valid trace, the skip counter stays within `[0, n]`
at every iteration, so every return value is either one of the two negative
sentinels or a success count in `[0, n]` — in particular success results
are distinguishable from both sentinels.  (For `n < 1` the function instead
returns 0 without looping, which exceeds a negative `n`.) -/
theorem skip0_success_bounded (n : Int) (reads : List ReadResult) (o : Outcome)
    (h1 : 1 ≤ n) (hv : validReads n (chunkSize n) 0 reads = true)
    (h2 : skip0 n reads = some o) :
    o.ret = IOS_INTERRUPTED ∨ o.ret = IOS_THROWN
      ∨ (0 ≤ o.ret ∧ o.ret ≤ n ∧ o.ret ≠ IOS_INTERRUPTED
          ∧ o.ret ≠ IOS_THROWN) := by
  unfold skip0 at h2
  rw [if_neg (by omega)] at h2
  obtain ⟨hbs1, hbsn⟩ := chunkSize_bounds n h1
  have hb := skipLoop_ret_bounds reads n (chunkSize n) 0 hbs1 (le_refl 0)
    (by omega) hv o h2
  rcases hb with hb | hb | hb
  · exact Or.inl hb
  · exact Or.inr (Or.inl hb)
  · refine Or.inr (Or.inr ⟨hb.1, hb.2, ?_, ?_⟩)
    · unfold IOS_INTERRUPTED
      omega
    · unfold IOS_THROWN
      omega

theorem skip0_success_bounded_witness :
    (⟨3, [], [5]⟩ : Outcome).ret = IOS_INTERRUPTED
    ∨ (⟨3, [], [5]⟩ : Outcome).ret = IOS_THROWN
    ∨ (0 ≤ (⟨3, [], [5]⟩ : Outcome).ret ∧ (⟨3, [], [5]⟩ : Outcome).ret ≤ 5
        ∧ (⟨3, [], [5]⟩ : Outcome).ret ≠ IOS_INTERRUPTED
        ∧ (⟨3, [], [5]⟩ : Outcome).ret ≠ IOS_THROWN) :=
  skip0_success_bounded 5 [.ok 3] ⟨3, [], [5]⟩ (by decide) (by decide)
    (by decide)

/-- Claim C4: for every requested count `n < 1` (zero or negative), `skip0`
returns 0 immediately: the list of read syscalls it issued is empty and no
exception is raised, whatever the descriptor would have answered. -/
theorem skip0_count_lt_one (n : Int) (reads : List ReadResult) (h : n < 1) :
    skip0 n reads = some ⟨0, [], []⟩ := by
  unfold skip0
  rw [if_pos h]

theorem skip0_count_lt_one_witness :
    skip0 0 [.ok 7] = some ⟨0, [], []⟩ :=
  skip0_count_lt_one 0 [.ok 7] (by decide)

/-- Claim C5: whenever a read fails with `EAGAIN` or `EWOULDBLOCK` at any
iteration — after any trace prefix `pre` the loop ran through without
terminating — `skip0` stops and returns the total accumulated so far
(`accum pre`), raising nothing; with `pre = []` (a non-blocking descriptor
with no data available on the first read) that total is 0, not an error. -/
theorem skip0_eagain_returns_total (n : Int) (pre rest : List ReadResult)
    (h1 : 1 ≤ n) (h2 : skip0 n pre = none) :
    (skip0 n (pre ++ .err .eagain :: rest)).map Outcome.ret
        = some (accum pre)
    ∧ (skip0 n (pre ++ .err .eagain :: rest)).map Outcome.thrown = some []
    ∧ (skip0 n (pre ++ .err .ewouldblock :: rest)).map Outcome.ret
        = some (accum pre)
    ∧ (skip0 n (pre ++ .err .ewouldblock :: rest)).map Outcome.thrown
        = some [] := by
  have hloop : ∀ l : List ReadResult,
      skip0 n l = skipLoop n (chunkSize n) 0 l := by
    intro l
    unfold skip0
    rw [if_neg (by omega)]
  rw [hloop] at h2
  rw [hloop, hloop]
  have ha := skipLoop_append_of_none pre n (chunkSize n) 0
    (.err .eagain :: rest) h2
  have hb := skipLoop_append_of_none pre n (chunkSize n) 0
    (.err .ewouldblock :: rest) h2
  rw [ha.1, ha.2, hb.1, hb.2, skipLoop_eagain, skipLoop_ewouldblock]
  simp

theorem skip0_eagain_returns_total_witness :
    (skip0 7 ([] ++ .err .eagain :: [])).map Outcome.ret = some (accum [])
    ∧ (skip0 7 ([] ++ .err .eagain :: [])).map Outcome.thrown = some []
    ∧ (skip0 7 ([] ++ .err .ewouldblock :: [])).map Outcome.ret
        = some (accum [])
    ∧ (skip0 7 ([] ++ .err .ewouldblock :: [])).map Outcome.thrown
        = some [] :=
  skip0_eagain_returns_total 7 [] [] (by decide) (by decide)

/-- Claim C6: whenever a read fails with any errno other than `EAGAIN`,
`EWOULDBLOCK` or `EINTR` at any iteration, `skip0` raises an I/O exception
carrying the OS error text through the runtime's exception channel and
returns the thrown sentinel; and every terminating call has one of exactly
three outcomes: the interruption sentinel, the thrown sentinel, or a
non-negative success count. -/
theorem skip0_other_error_throws (n n2 : Int)
    (pre rest reads : List ReadResult) (osText : String) (o2 : Outcome)
    (h1 : 1 ≤ n) (h2 : skip0 n pre = none) (h3 : skip0 n2 reads = some o2) :
    (skip0 n (pre ++ .err (.other osText) :: rest)).map Outcome.ret
        = some IOS_THROWN
    ∧ (skip0 n (pre ++ .err (.other osText) :: rest)).map Outcome.thrown
        = some [osText]
    ∧ (o2.ret = IOS_INTERRUPTED ∨ o2.ret = IOS_THROWN ∨ 0 ≤ o2.ret) := by
  refine ⟨?_, ?_, ?_⟩
  · unfold skip0 at h2 ⊢
    rw [if_neg (by omega)] at h2 ⊢
    have ha := skipLoop_append_of_none pre n (chunkSize n) 0
      (.err (.other osText) :: rest) h2
    rw [ha.1, skipLoop_other]
    simp
  · unfold skip0 at h2 ⊢
    rw [if_neg (by omega)] at h2 ⊢
    have ha := skipLoop_append_of_none pre n (chunkSize n) 0
      (.err (.other osText) :: rest) h2
    rw [ha.2, skipLoop_other]
    simp
  · unfold skip0 at h3
    by_cases hn2 : n2 < 1
    · rw [if_pos hn2, Option.some.injEq] at h3
      subst h3
      exact Or.inr (Or.inr (le_refl 0))
    · rw [if_neg hn2] at h3
      exact skipLoop_ret_cases reads n2 (chunkSize n2) 0 (le_refl 0) o2 h3

theorem skip0_other_error_throws_witness :
    (skip0 5 ([] ++ .err (.other "No space left on device") :: [])).map
        Outcome.ret = some IOS_THROWN
    ∧ (skip0 5 ([] ++ .err (.other "No space left on device") :: [])).map
        Outcome.thrown = some ["No space left on device"]
    ∧ ((⟨3, [], [5]⟩ : Outcome).ret = IOS_INTERRUPTED
        ∨ (⟨3, [], [5]⟩ : Outcome).ret = IOS_THROWN
        ∨ 0 ≤ (⟨3, [], [5]⟩ : Outcome).ret) :=
  skip0_other_error_throws 5 5 [] [] [.ok 3] "No space left on device"
    ⟨3, [], [5]⟩ (by decide) (by decide) (by decide)

/-- Claim C7: after a successful read of `nr` bytes at any iteration of the
loop (any counter value `tn`), the loop continues to the next iteration
exactly when `nr` equals the chunk size `bs`: in that case the run proceeds
as the loop restarted on the remaining outcomes with the counter advanced
by `nr`; in every other case — a short read, including `nr = 0` at
end-of-stream — the loop stops at once, issuing no further read, and
returns the accumulated total. -/
theorem skipLoop_continue_iff_full (n bs tn : Int) (nr : Nat)
    (rest : List ReadResult) (hbs : 1 ≤ bs) :
    ((nr : Int) = bs →
      skipLoop n bs tn (.ok nr :: rest)
        = (skipLoop n bs (tn + (nr : Int)) rest).map
            (fun o => ⟨o.ret, o.thrown, readCount n bs tn :: o.requested⟩))
    ∧ (¬ (nr : Int) = bs →
      skipLoop n bs tn (.ok nr :: rest)
        = some ⟨tn + (if 0 < (nr : Int) then (nr : Int) else 0), [],
            [readCount n bs tn]⟩) := by
  constructor
  · intro h
    have hbump : bumpTn tn nr = tn + (nr : Int) := by
      unfold bumpTn
      split <;> omega
    rw [skipLoop_ok_continue n bs tn nr rest h, hbump]
  · intro h
    rw [skipLoop_ok_stop n bs tn nr rest h]
    congr 1
    unfold bumpTn
    by_cases h0 : 0 < (nr : Int) <;> simp [h0]

theorem skipLoop_continue_iff_full_witness :
    (skipLoop 10 5 0 (.ok 5 :: [.ok 2])
        = (skipLoop 10 5 (0 + ((5 : Nat) : Int)) [.ok 2]).map
            (fun o => ⟨o.ret, o.thrown, readCount 10 5 0 :: o.requested⟩))
    ∧ (skipLoop 10 5 0 (.ok 0 :: [.ok 2])
        = some ⟨0 + (if 0 < ((0 : Nat) : Int) then ((0 : Nat) : Int) else 0),
            [], [readCount 10 5 0]⟩) :=
  ⟨(skipLoop_continue_iff_full 10 5 0 5 [.ok 2] (by decide)).1 (by decide),
   (skipLoop_continue_iff_full 10 5 0 0 [.ok 2] (by decide)).2 (by decide)⟩

/-- Claim C8: for every requested count `n ≥ 1` the chunk size is
`min n 4096`, and the `i`-th read syscall the call issues requests exactly
`min remaining bs` bytes, where `remaining = n - i * bs` because each
continuing iteration accumulates exactly `bs` bytes. -/
theorem skip0_request_sizes (n : Int) (reads : List ReadResult) (o : Outcome)
    (i : Nat) (h1 : 1 ≤ n) (h2 : skip0 n reads = some o)
    (hi : i < o.requested.length) :
    chunkSize n = min n 4096
    ∧ o.requested.getD i 0
        = min (n - (i : Int) * chunkSize n) (chunkSize n) := by
  obtain ⟨hbs1, hbsn⟩ := chunkSize_bounds n h1
  refine ⟨chunkSize_eq_min n, ?_⟩
  unfold skip0 at h2
  rw [if_neg (by omega)] at h2
  have hr := skipLoop_requested reads n (chunkSize n) 0 hbs1 o h2 i hi
  rw [hr, readCount_eq_min]
  congr 1
  ring

theorem skip0_request_sizes_witness :
    chunkSize 5000 = min 5000 4096
    ∧ (⟨5000, [], [4096, 904]⟩ : Outcome).requested.getD 1 0
        = min (5000 - ((1 : Nat) : Int) * chunkSize 5000) (chunkSize 5000) :=
  skip0_request_sizes 5000 [.ok 4096, .ok 904] ⟨5000, [], [4096, 904]⟩ 1
    (by decide) (by decide) (by decide)

/-- Claim C9: when the requested count `n ≥ 1` is an exact multiple of the
chunk size and every read fills its buffer exactly, the loop does not stop
at the moment the count is exhausted: it issues one additional read
requesting 0 bytes (the final entry of `requested`), and when that read
returns 0 the call returns exactly `n`. -/
theorem skip0_exact_multiple_extra_read (n : Int) (h1 : 1 ≤ n)
    (h2 : n % chunkSize n = 0) :
    skip0 n (List.replicate (n / chunkSize n).toNat (.ok (chunkSize n).toNat)
        ++ [.ok 0])
      = some ⟨n, [],
          List.replicate (n / chunkSize n).toNat (chunkSize n) ++ [0]⟩ := by
  obtain ⟨hbs1, hbsn⟩ := chunkSize_bounds n h1
  unfold skip0
  rw [if_neg (by omega)]
  apply skipLoop_exact_multiple
  · exact hbs1
  · have hdiv := Int.ediv_add_emod n (chunkSize n)
    have hq0 : 0 ≤ n / chunkSize n := Int.ediv_nonneg (by omega) (by omega)
    have hcast : (((n / chunkSize n).toNat : Nat) : Int) = n / chunkSize n :=
      Int.toNat_of_nonneg hq0
    rw [sub_zero, hcast, mul_comm]
    linarith

theorem skip0_exact_multiple_extra_read_witness :
    skip0 8192
        (List.replicate ((8192 : Int) / chunkSize 8192).toNat
          (.ok (chunkSize 8192).toNat) ++ [.ok 0])
      = some ⟨8192, [],
          List.replicate ((8192 : Int) / chunkSize 8192).toNat
            (chunkSize 8192) ++ [0]⟩ :=
  skip0_exact_multiple_extra_read 8192 (by decide) (by decide)

/-- Claim C10: for every requested count `n ≥ 1` and every POSIX-valid
sequence of read outcomes the loop terminates: a valid trace longer than
`n / bs` outcomes is never exhausted, and the call performs at most
`n / bs + 1` iterations (one read syscall each), `bs` being the chunk size
— every continuing iteration consumes exactly `bs` bytes of the remaining
count. -/
theorem skip0_terminates_within_bound (n : Int) (reads : List ReadResult)
    (o : Outcome) (h1 : 1 ≤ n)
    (hv : validReads n (chunkSize n) 0 reads = true) :
    (n / chunkSize n < (reads.length : Int) → (skip0 n reads).isSome = true)
    ∧ (skip0 n reads = some o →
        (o.requested.length : Int) ≤ n / chunkSize n + 1) := by
  obtain ⟨hbs1, hbsn⟩ := chunkSize_bounds n h1
  have hbound := skipLoop_iter_bound reads n (chunkSize n) 0 hbs1 (by omega) hv
  unfold skip0
  rw [if_neg (by omega)]
  constructor
  · intro hlen
    cases hcase : skipLoop n (chunkSize n) 0 reads with
    | none =>
      exfalso
      have hmul := hbound.1 hcase
      have hle : (reads.length : Int) ≤ n / chunkSize n :=
        (Int.le_ediv_iff_mul_le (by omega)).mpr (by linarith)
      linarith
    | some o' => simp
  · intro h2
    obtain ⟨hlen1, hlen2⟩ := hbound.2 o h2
    have hle : (o.requested.length : Int) - 1 ≤ n / chunkSize n :=
      (Int.le_ediv_iff_mul_le (by omega)).mpr (by linarith)
    linarith

theorem skip0_terminates_within_bound_witness :
    (skip0 5 [.ok 3, .ok 9]).isSome = true
    ∧ (((⟨3, [], [5]⟩ : Outcome).requested.length : Int)
        ≤ 5 / chunkSize 5 + 1) :=
  ⟨(skip0_terminates_within_bound 5 [.ok 3, .ok 9] ⟨3, [], [5]⟩ (by decide)
      (by decide)).1 (by decide),
   (skip0_terminates_within_bound 5 [.ok 3, .ok 9] ⟨3, [], [5]⟩ (by decide)
      (by decide)).2 (by decide)⟩
